import Mathlib

/-!
Verification of the moodle-grader repository.

The development shallowly embeds:
* the nested-parameter encoder of `src/autograder/moodle.py` and
  `src/moodle_grader/moodle.py` (the two copies of `_encode_inner` /
  `encode_params` are textually identical, so a single embedding covers both);
* the PDF grading helpers `get_points` and `modify_pdf` of
  `src/autograder/core.py`.

Python dictionaries are insertion-ordered, so they are embedded as
association lists; the dict comprehension in `encode_params` is embedded as a
left fold of ordered-dict assignment (`insertLast`).
-/

namespace MoodleGrader

/-- Atomic scalar parameter values, `ParamAtom = int | str | float | bool`.
Python floats are carried as exact rationals: the encoder never inspects or
computes with a float payload, it only moves it around, so the carrier only
needs decidable equality. -/
inductive PAtom where
  | int (n : Int)
  | float (q : Rat)
  | str (s : String)
  | bool (b : Bool)
deriving DecidableEq

/-- `ParamDataInner = dict[str, ParamDataInner] | list[ParamDataInner] | ParamAtom`.
The extra constructor `other` stands for a Python value outside this annotated
union (for example `None` or a set): the dynamically typed code can still
receive such a value, and the wildcard `case _:` of `_encode_inner` treats it
exactly like an atom. -/
inductive PValue where
  | dict (entries : List (String × PValue))
  | list (elems : List PValue)
  | atom (a : PAtom)
  | other

mutual

/-- `_encode_inner` from `moodle.py`: the generator is embedded as the list of
pairs it yields, in yield order.  `case dict()` prepends the key to every path
yielded from the value, `case list()` prepends `str(i)` for the 0-based index,
and the wildcard `case _:` yields the value itself under the empty path. -/
def _encode_inner : PValue → List (List String × PValue)
  | .dict entries => _encode_dict entries
  | .list elems => _encode_list 0 elems
  | .atom a => [([], .atom a)]
  | .other => [([], .other)]

/-- The `for key, elem in data.items()` loop of `_encode_inner`. -/
def _encode_dict : List (String × PValue) → List (List String × PValue)
  | [] => []
  | (k, v) :: rest =>
      ((_encode_inner v).map fun p => (k :: p.1, p.2)) ++ _encode_dict rest

/-- The `for i, elem in enumerate(data)` loop of `_encode_inner`; `i` is the
running 0-based index. -/
def _encode_list (i : Nat) : List PValue → List (List String × PValue)
  | [] => []
  | v :: rest =>
      ((_encode_inner v).map fun p => (toString i :: p.1, p.2)) ++ _encode_list (i + 1) rest

end

/-- `names[0] + "".join(f"[.]" wrapping of names[1:])` from `encode_params`:
the first path segment verbatim, every later segment wrapped in square
brackets.  (`_encode_inner` applied to a dict only yields nonempty paths, so
the `[]` case — where Python would raise `IndexError` — is unreachable from
`encode_params`.) -/
def flatKey : List String → String
  | [] => ""
  | n :: rest => n ++ String.join (rest.map fun s => "[" ++ s ++ "]")

/-- Assignment `d[k] = v` on an insertion-ordered Python dict: if the key is
present its value is replaced in place, otherwise the pair is appended. -/
def insertLast (m : List (String × PValue)) (k : String) (v : PValue) :
    List (String × PValue) :=
  if m.any fun p => p.1 == k then
    m.map fun p => if p.1 == k then (p.1, v) else p
  else
    m ++ [(k, v)]

/-- Lookup in an insertion-ordered dict embedded as an association list. -/
def lookupKey (k : String) : List (String × PValue) → Option PValue
  | [] => none
  | (k', v) :: rest => if k' == k then some v else lookupKey k rest

/-- `encode_params` from `moodle.py`: the dict comprehension over
`_encode_inner(data)`, building the output dict by repeated assignment (so a
later yield with the same flat key overwrites an earlier one). -/
def encode_params (data : List (String × PValue)) : List (String × PValue) :=
  (_encode_inner (.dict data)).foldl (fun m p => insertLast m (flatKey p.1) p.2) []

mutual

/-- The spec's "leaves of the input tree", in depth-first order: the values
of a tree that are neither a mapping nor a sequence.  On well-formed trees
these are exactly the spec's atomic leaves. -/
def leaves : PValue → List PValue
  | .dict entries => leavesDict entries
  | .list elems => leavesList elems
  | .atom a => [.atom a]
  | .other => [.other]

def leavesDict : List (String × PValue) → List PValue
  | [] => []
  | (_, v) :: rest => leaves v ++ leavesDict rest

def leavesList : List PValue → List PValue
  | [] => []
  | v :: rest => leaves v ++ leavesList rest

end

/-- The spec's "number of atomic leaves in the input tree". -/
def numLeaves (v : PValue) : Nat := (leaves v).length

mutual

/-- A tree is well formed when every value in it is a mapping, a sequence or
an atomic scalar — the domain `ParamDataInner` of the spec's Structured
Parameter Values, with no `other` value anywhere. -/
def wellFormed : PValue → Bool
  | .dict entries => wfDict entries
  | .list elems => wfList elems
  | .atom _ => true
  | .other => false

def wfDict : List (String × PValue) → Bool
  | [] => true
  | (_, v) :: rest => wellFormed v && wfDict rest

def wfList : List PValue → Bool
  | [] => true
  | v :: rest => wellFormed v && wfList rest

end

mutual

/-- `permTree v w` holds when `w` is obtained from `v` by re-ordering the
sibling entries of mappings, anywhere in the tree; sequences keep their order
and their elements are related pointwise. -/
def permTree : PValue → PValue → Prop
  | .dict xs, .dict zs => ∃ ys, permEntries xs ys ∧ ys.Perm zs
  | .list xs, .list ys => permElems xs ys
  | .atom a, .atom b => a = b
  | .other, .other => True
  | _, _ => False

/-- Pointwise `permTree` on mapping entries: same keys in the same order,
values related by `permTree`. -/
def permEntries : List (String × PValue) → List (String × PValue) → Prop
  | [], [] => True
  | (k, v) :: xs, (k', w) :: ys => k = k' ∧ permTree v w ∧ permEntries xs ys
  | _, _ => False

/-- Pointwise `permTree` on sequence elements. -/
def permElems : List PValue → List PValue → Prop
  | [], [] => True
  | v :: xs, w :: ys => permTree v w ∧ permElems xs ys
  | _, _ => False

end


/-! ### Embedding of `src/autograder/core.py`: `get_points` and `modify_pdf` -/

/-- The result of Python's `float(str)`.  Finite values are carried as exact
rationals (the rounding of the exact decimal value to binary64 is not
modelled; no claim depends on it), and the special values `inf`/`-inf`/`nan`
are separate constructors. -/
inductive PyFloat where
  | finite (q : Rat)
  | inf (neg : Bool)
  | nan
deriving DecidableEq

/-- ASCII whitespace stripped by Python's `float(str)` (the full Unicode
whitespace set is not modelled; no claim uses non-ASCII whitespace). -/
def isPySpace (c : Char) : Bool :=
  c == ' ' || c == '\t' || c == '\n' || c == '\x0d' || c == '\x0b' || c == '\x0c'

/-- Scan a run of decimal digits with single underscores allowed between
digits, accumulating the value and the count of digits consumed.  Stops (and
leaves the offending suffix in place) at a character that cannot extend the
run, so a stray underscore makes the final leftover-input check fail, exactly
as `float("1_")` or `float("1__2")` raise `ValueError` in Python. -/
def digitsLoop (acc len : Nat) : List Char → Nat × Nat × List Char
  | c :: cs =>
      if c.isDigit then digitsLoop (acc * 10 + (c.toNat - 48)) (len + 1) cs
      else if c == '_' then
        match cs with
        | d :: cs' =>
            if d.isDigit then digitsLoop (acc * 10 + (d.toNat - 48)) (len + 1) cs'
            else (acc, len, c :: d :: cs')
        | [] => (acc, len, [c])
      else (acc, len, c :: cs)
  | [] => (acc, len, [])

/-- A `digitpart` of the `float(str)` grammar: at least one digit, with
underscores allowed between digits.  Returns value, digit count and rest. -/
def parseUDigits : List Char → Option (Nat × Nat × List Char)
  | c :: rest => if c.isDigit then some (digitsLoop (c.toNat - 48) 1 rest) else none
  | [] => none

/-- Zero or more digits (the optional fraction after the decimal point). -/
def parseUDigitsOpt (cs : List Char) : Nat × Nat × List Char :=
  match cs with
  | c :: rest => if c.isDigit then digitsLoop (c.toNat - 48) 1 rest else (0, 0, cs)
  | [] => (0, 0, [])

/-- An optional leading sign; returns whether the value is negated. -/
def parseSign : List Char → Bool × List Char
  | '+' :: cs => (false, cs)
  | '-' :: cs => (true, cs)
  | cs => (false, cs)

/-- The mantissa of the `float(str)` grammar: `digits [. [digits]]` or
`. digits`.  Returns the digit string's value, the fraction length, and the
unconsumed rest. -/
def parseMantissa : List Char → Option (Nat × Nat × List Char)
  | '.' :: rest =>
      match parseUDigits rest with
      | some (fv, fl, rest2) => some (fv, fl, rest2)
      | none => none
  | cs =>
      match parseUDigits cs with
      | some (iv, _, rest) =>
          match rest with
          | '.' :: rest2 =>
              match parseUDigitsOpt rest2 with
              | (fv, fl, rest3) => some (iv * 10 ^ fl + fv, fl, rest3)
          | _ => some (iv, 0, rest)
      | none => none

/-- The optional exponent `('e'|'E') [sign] digits` of the grammar. -/
def parseExp : List Char → Option (Int × List Char)
  | c :: rest =>
      if c == 'e' || c == 'E' then
        match parseSign rest with
        | (neg, rest2) =>
            match parseUDigits rest2 with
            | some (ev, _, rest3) =>
                some ((if neg then -(ev : Int) else (ev : Int)), rest3)
            | none => none
      else some (0, c :: rest)
  | [] => some (0, [])

/-- The exact rational value of a parsed decimal: sign, mantissa digits `m`,
fraction length `fl` and exponent `e` give `±m * 10 ^ (e - fl)`. -/
def pyFloatVal (neg : Bool) (m fl : Nat) (e : Int) : Rat :=
  let base : Rat := ((if neg then -(m : Int) else (m : Int) : Int) : Rat)
  let shift : Int := e - (fl : Int)
  if 0 ≤ shift then base * ((10 : Rat) ^ shift.toNat)
  else base / ((10 : Rat) ^ (-shift).toNat)

/-- Python's built-in `float(str)`: strip whitespace, optional sign, then a
case-insensitive `inf`/`infinity`/`nan` keyword or a decimal number with
optional fraction and exponent; `none` models `ValueError`. -/
def pyFloat? (s : String) : Option PyFloat :=
  let cs0 := s.data.dropWhile isPySpace
  let cs1 := (cs0.reverse.dropWhile isPySpace).reverse
  match parseSign cs1 with
  | (neg, cs) =>
      let low := cs.map Char.toLower
      if low = "infinity".data ∨ low = "inf".data then some (.inf neg)
      else if low = "nan".data then some .nan
      else
        match parseMantissa cs with
        | some (m, fl, rest) =>
            match parseExp rest with
            | some (e, rest2) =>
                if rest2 = [] then some (.finite (pyFloatVal neg m fl e)) else none
            | none => none
        | none => none

/-- `data.replace(",", ".")` from `get_points`: Python's `str.replace`
replaces every occurrence of the pattern, which for the single-character
pattern used at this call site is a character map. -/
def replaceCommas (s : String) : String :=
  ⟨s.data.map fun c => if c == ',' then '.' else c⟩

/-- `file.get_form_text_fields().get(k)`: the form-field dictionary of the
PDF is embedded as an association list whose values may themselves be `None`
(pypdf reports unfilled text fields that way); a missing key and a `None`
value both give `none`. -/
def getFormField (fields : List (String × Option String)) (k : String) :
    Option String :=
  match fields.find? fun p => p.1 == k with
  | some (_, v) => v
  | none => none

/-- `get_points` from `core.py`, as a function of the PDF's form-field
dictionary: read `moodleGradeField`; `if not data: return None` (so a missing
field, a `None` value and an empty text all give `None`); try `float(data)`;
on `ValueError` try `float(data.replace(",", "."))`; on a second `ValueError`
give `None`. -/
def get_points (fields : List (String × Option String)) : Option PyFloat :=
  match getFormField fields "moodleGradeField" with
  | none => none
  | some data =>
      if data = "" then none
      else
        match pyFloat? data with
        | some v => some v
        | none =>
            match pyFloat? (replaceCommas data) with
            | some v => some v
            | none => none

/-- Truthiness of a Python float: `0.0` (and `-0.0`, which is the same
rational) is falsy; every other float, including `nan` and `inf`, is truthy. -/
def pyTruthy : PyFloat → Bool
  | .finite q => decide (q ≠ 0)
  | _ => true

/-- The observable effect of one `modify_pdf` call on the student file. -/
structure PdfEffect where
  /-- whether the file was opened (`PdfWriter(clone_from=student_file)`). -/
  opened : Bool
  /-- the points value written into the `moodleGradeField` form field, if any
  (`str()` rendering at the library boundary is not modelled). -/
  fieldWrite : Option PyFloat
  /-- whether the bonus image page was merged onto page 0. -/
  bonusMerged : Bool
  /-- whether the file was rewritten (`pdf.write(student_file)`). -/
  fileWritten : Bool
deriving DecidableEq

/-- `modify_pdf` from `core.py`: `if not points and not bonus_image: return`
(no effect at all), otherwise open the file, write the form field only
`if points:` (so a falsy `0.0` is never written), merge the bonus image
`if bonus_image:`, and rewrite the file.  The bonus image path is an opaque
string. -/
def modify_pdf (points : Option PyFloat) (bonus_image : Option String) :
    PdfEffect :=
  if (points.elim false pyTruthy) = false ∧ bonus_image = none then
    ⟨false, none, false, false⟩
  else
    { opened := true
      fieldWrite :=
        match points with
        | some p => if pyTruthy p then some p else none
        | none => none
      bonusMerged := bonus_image.isSome
      fileWritten := true }


/-! ### Lemmas about the encoder -/

theorem _encode_dict_append (xs ys : List (String × PValue)) :
    _encode_dict (xs ++ ys) = _encode_dict xs ++ _encode_dict ys := by
  induction xs with
  | nil => simp [_encode_dict]
  | cons p xs ih => cases p; simp [_encode_dict, ih]

theorem _encode_list_append :
    ∀ (xs : List PValue) (i : Nat) (ys : List PValue),
      _encode_list i (xs ++ ys) = _encode_list i xs ++ _encode_list (i + xs.length) ys
  | [], i, ys => by simp [_encode_list]
  | v :: xs, i, ys => by
      rw [List.cons_append, _encode_list, _encode_list,
        _encode_list_append xs (i + 1) ys, List.append_assoc, List.length_cons,
        show i + (xs.length + 1) = i + 1 + xs.length by omega]

theorem _encode_dict_eq_flatMap (xs : List (String × PValue)) :
    _encode_dict xs
      = xs.flatMap fun p => (_encode_inner p.2).map fun q => (p.1 :: q.1, q.2) := by
  induction xs with
  | nil => simp [_encode_dict]
  | cons p xs ih => cases p; simp [_encode_dict, ih]

theorem map_snd_map_consKey (k : String) (l : List (List String × PValue)) :
    (l.map fun p => (k :: p.1, p.2)).map Prod.snd = l.map Prod.snd := by
  induction l with
  | nil => rfl
  | cons p l ih => simp [ih]

mutual

theorem _encode_inner_snd : ∀ v : PValue, (_encode_inner v).map Prod.snd = leaves v
  | .dict entries => by
      rw [_encode_inner, leaves]; exact _encode_dict_snd entries
  | .list elems => by
      rw [_encode_inner, leaves]; exact _encode_list_snd 0 elems
  | .atom a => by simp [_encode_inner, leaves]
  | .other => by simp [_encode_inner, leaves]

theorem _encode_dict_snd :
    ∀ xs : List (String × PValue), (_encode_dict xs).map Prod.snd = leavesDict xs
  | [] => by simp [_encode_dict, leavesDict]
  | (k, v) :: xs => by
      rw [_encode_dict, leavesDict, List.map_append, map_snd_map_consKey,
        _encode_inner_snd v, _encode_dict_snd xs]

theorem _encode_list_snd :
    ∀ (i : Nat) (xs : List PValue), (_encode_list i xs).map Prod.snd = leavesList xs
  | _, [] => by simp [_encode_list, leavesList]
  | i, v :: xs => by
      rw [_encode_list, leavesList, List.map_append, map_snd_map_consKey,
        _encode_inner_snd v, _encode_list_snd (i + 1) xs]

end

theorem _encode_inner_length (v : PValue) : (_encode_inner v).length = numLeaves v := by
  rw [numLeaves, ← _encode_inner_snd v, List.length_map]

theorem lookupKey_append (k : String) (m₁ m₂ : List (String × PValue)) :
    lookupKey k (m₁ ++ m₂)
      = match lookupKey k m₁ with
        | some v => some v
        | none => lookupKey k m₂ := by
  induction m₁ with
  | nil => simp [lookupKey]
  | cons p m₁ ih =>
      cases p with
      | mk k' v => by_cases h : k' == k <;> simp [lookupKey, h, ih]

theorem lookupKey_eq_none {k : String} {m : List (String × PValue)}
    (h : ∀ p ∈ m, p.1 ≠ k) : lookupKey k m = none := by
  induction m with
  | nil => rfl
  | cons p m ih =>
      have hk : (p.1 == k) = false := by
        simpa using h p (by simp)
      cases p
      rw [lookupKey]
      simp only at hk
      rw [hk]
      exact ih fun q hq => h q (by simp [hq])

theorem insertLast_of_not_mem {m : List (String × PValue)} {k : String} {v : PValue}
    (h : ∀ p ∈ m, p.1 ≠ k) : insertLast m k v = m ++ [(k, v)] := by
  have hany : (m.any fun p => p.1 == k) = false := by
    simp only [List.any_eq_false]
    intro p hp
    simpa using h p hp
  simp [insertLast, hany]

theorem lookupKey_mapReplace (k : String) (v : PValue) :
    ∀ m : List (String × PValue), (m.any fun p => p.1 == k) = true →
      lookupKey k (m.map fun p => if p.1 == k then (p.1, v) else p) = some v
  | [], h => by simp at h
  | (k₀, v₀) :: m, h => by
      simp only [List.map_cons]
      by_cases hk : (k₀ == k) = true
      · rw [if_pos hk, lookupKey, if_pos hk]
      · rw [if_neg hk, lookupKey, if_neg hk]
        have hm : (m.any fun p => p.1 == k) = true := by
          have hkf : ((k₀, v₀).1 == k) = false := by simpa using hk
          simpa [List.any_cons, hkf] using h
        exact lookupKey_mapReplace k v m hm

theorem lookupKey_mapReplace_ne {k k' : String} (h : k' ≠ k) (v : PValue) :
    ∀ m : List (String × PValue),
      lookupKey k (m.map fun p => if p.1 == k' then (p.1, v) else p) = lookupKey k m
  | [] => rfl
  | (k₀, v₀) :: m => by
      simp only [List.map_cons]
      by_cases hk : (k₀ == k') = true
      · have hp : k₀ = k' := by simpa using hk
        have hne : (k₀ == k) = false := by simp [hp, h]
        rw [if_pos hk, lookupKey, lookupKey, hne]
        rw [if_neg (by simp)]
        exact lookupKey_mapReplace_ne h v m
      · rw [if_neg hk, lookupKey, lookupKey]
        by_cases hne : (k₀ == k) = true
        · rw [if_pos hne, if_pos hne]
        · rw [if_neg hne, if_neg hne]
          exact lookupKey_mapReplace_ne h v m

theorem lookupKey_insertLast_self (m : List (String × PValue)) (k : String) (v : PValue) :
    lookupKey k (insertLast m k v) = some v := by
  by_cases hany : (m.any fun p => p.1 == k) = true
  · simp only [insertLast, hany, if_true]
    exact lookupKey_mapReplace k v m hany
  · have hf : ∀ p ∈ m, p.1 ≠ k := by
      intro p hp hcontra
      exact hany (List.any_eq_true.mpr ⟨p, hp, by simp [hcontra]⟩)
    rw [insertLast_of_not_mem hf, lookupKey_append, lookupKey_eq_none hf]
    simp [lookupKey]

theorem lookupKey_insertLast_ne {k k' : String} (h : k' ≠ k)
    (m : List (String × PValue)) (v : PValue) :
    lookupKey k (insertLast m k' v) = lookupKey k m := by
  by_cases hany : (m.any fun p => p.1 == k') = true
  · simp only [insertLast, hany, if_true]
    exact lookupKey_mapReplace_ne h v m
  · have hf : (m.any fun p => p.1 == k') = false := by
      cases hx : (m.any fun p => p.1 == k') with
      | true => exact absurd hx hany
      | false => rfl
    rw [insertLast, if_neg (by simp [hf]), lookupKey_append]
    have : lookupKey k [(k', v)] = none := by
      simp [lookupKey, show (k' == k) = false by simpa using h]
    rw [this]
    cases lookupKey k m <;> rfl

theorem lookupKey_foldl_insertLast (k : String) :
    ∀ (l : List (List String × PValue)) (m : List (String × PValue)),
      lookupKey k (l.foldl (fun m p => insertLast m (flatKey p.1) p.2) m)
        = ((l.reverse.find? fun p => flatKey p.1 == k).map Prod.snd).or (lookupKey k m)
  | [], m => by simp
  | p :: l, m => by
      rw [List.foldl_cons, lookupKey_foldl_insertLast k l _, List.reverse_cons,
        List.find?_append]
      by_cases hp : (flatKey p.1 == k) = true
      · have hk : flatKey p.1 = k := by simpa using hp
        rw [show (List.find? (fun p => flatKey p.1 == k) [p]) = some p by simp [hp]]
        rw [hk, lookupKey_insertLast_self]
        cases List.find? (fun p => flatKey p.1 == k) l.reverse <;> simp
      · rw [show (List.find? (fun p => flatKey p.1 == k) [p]) = none by simp [hp]]
        rw [lookupKey_insertLast_ne (by simpa using hp)]
        cases List.find? (fun p => flatKey p.1 == k) l.reverse <;> simp

theorem foldl_insertLast_of_nodup :
    ∀ (l : List (List String × PValue)) (m : List (String × PValue)),
      ((l.map fun p => flatKey p.1).Nodup) →
      (∀ p ∈ l, ∀ q ∈ m, q.1 ≠ flatKey p.1) →
      l.foldl (fun m p => insertLast m (flatKey p.1) p.2) m
        = m ++ l.map fun p => (flatKey p.1, p.2)
  | [], m, _, _ => by simp
  | p :: l, m, hnd, hdisj => by
      rw [List.foldl_cons,
        insertLast_of_not_mem fun q hq => hdisj p (by simp) q hq]
      rw [List.map_cons, List.nodup_cons] at hnd
      rw [foldl_insertLast_of_nodup l (m ++ [(flatKey p.1, p.2)]) hnd.2 ?_]
      · simp
      · intro p' hp' q hq
        rcases List.mem_append.mp hq with hq | hq
        · exact hdisj p' (List.mem_cons_of_mem _ hp') q hq
        · have hq' : q = (flatKey p.1, p.2) := by simpa using hq
          rw [hq']
          intro hcontra
          apply hnd.1
          simp only at hcontra
          rw [hcontra]
          exact List.mem_map_of_mem _ hp'

theorem encode_params_eq_map {data : List (String × PValue)}
    (hnd : ((_encode_inner (.dict data)).map fun p => flatKey p.1).Nodup) :
    encode_params data
      = (_encode_inner (.dict data)).map fun p => (flatKey p.1, p.2) := by
  rw [encode_params, foldl_insertLast_of_nodup _ [] hnd (by simp), List.nil_append]

theorem lookupKey_of_mem_nodup :
    ∀ (m : List (String × PValue)), (m.map Prod.fst).Nodup →
      ∀ (k : String) (v : PValue), (k, v) ∈ m → lookupKey k m = some v
  | [], _, k, v, h => by simp at h
  | (k₀, v₀) :: m, hnd, k, v, h => by
      rw [List.map_cons, List.nodup_cons] at hnd
      rcases List.mem_cons.mp h with h' | h'
      · injection h' with h1 h2
        subst h1
        subst h2
        rw [lookupKey]
        simp
      · have hkm : k ∈ m.map Prod.fst := List.mem_map_of_mem Prod.fst h'
        have hne : (k₀ == k) = false := by
          by_cases he : k₀ = k
          · subst he
            exact absurd hkm hnd.1
          · simpa using he
        rw [lookupKey, hne]
        simp only [Bool.false_eq_true, if_false]
        exact lookupKey_of_mem_nodup m hnd.2 k v h'

theorem _encode_dict_perm {ys zs : List (String × PValue)} (h : ys.Perm zs) :
    (_encode_dict ys).Perm (_encode_dict zs) := by
  rw [_encode_dict_eq_flatMap, _encode_dict_eq_flatMap]
  exact h.flatMap_right _

mutual

theorem permTree_encode :
    ∀ v w : PValue, permTree v w → (_encode_inner v).Perm (_encode_inner w)
  | .dict xs, .dict zs, h => by
      simp only [permTree] at h
      obtain ⟨ys, h1, h2⟩ := h
      simp only [_encode_inner]
      exact (permEntries_encode xs ys h1).trans (_encode_dict_perm h2)
  | .list xs, .list ys, h => by
      simp only [permTree] at h
      simp only [_encode_inner]
      exact permElems_encode xs ys h 0
  | .atom a, .atom b, h => by
      simp only [permTree] at h
      rw [h]
  | .other, .other, _ => List.Perm.refl _
  | .dict _, .list _, h => by simp [permTree] at h
  | .dict _, .atom _, h => by simp [permTree] at h
  | .dict _, .other, h => by simp [permTree] at h
  | .list _, .dict _, h => by simp [permTree] at h
  | .list _, .atom _, h => by simp [permTree] at h
  | .list _, .other, h => by simp [permTree] at h
  | .atom _, .dict _, h => by simp [permTree] at h
  | .atom _, .list _, h => by simp [permTree] at h
  | .atom _, .other, h => by simp [permTree] at h
  | .other, .dict _, h => by simp [permTree] at h
  | .other, .list _, h => by simp [permTree] at h
  | .other, .atom _, h => by simp [permTree] at h

theorem permEntries_encode :
    ∀ xs ys : List (String × PValue), permEntries xs ys →
      (_encode_dict xs).Perm (_encode_dict ys)
  | [], [], _ => List.Perm.refl _
  | (k, v) :: xs, (k', w) :: ys, h => by
      simp only [permEntries] at h
      obtain ⟨hk, hvw, hrest⟩ := h
      subst hk
      simp only [_encode_dict]
      exact ((permTree_encode v w hvw).map _).append (permEntries_encode xs ys hrest)
  | [], (_, _) :: _, h => by simp [permEntries] at h
  | (_, _) :: _, [], h => by simp [permEntries] at h

theorem permElems_encode :
    ∀ xs ys : List PValue, permElems xs ys →
      ∀ i : Nat, (_encode_list i xs).Perm (_encode_list i ys)
  | [], [], _, _ => List.Perm.refl _
  | v :: xs, w :: ys, h, i => by
      simp only [permElems] at h
      obtain ⟨hvw, hrest⟩ := h
      simp only [_encode_list]
      exact ((permTree_encode v w hvw).map _).append (permElems_encode xs ys hrest (i + 1))
  | [], _ :: _, h, _ => by simp [permElems] at h
  | _ :: _, [], h, _ => by simp [permElems] at h

end

mutual

theorem permTree_refl : ∀ v : PValue, permTree v v
  | .dict xs => by
      simp only [permTree]
      exact ⟨xs, permEntries_refl xs, List.Perm.refl xs⟩
  | .list xs => by
      simp only [permTree]
      exact permElems_refl xs
  | .atom a => by simp [permTree]
  | .other => by simp [permTree]

theorem permEntries_refl : ∀ xs : List (String × PValue), permEntries xs xs
  | [] => by simp [permEntries]
  | (k, v) :: xs => by
      simp only [permEntries]
      exact ⟨trivial, permTree_refl v, permEntries_refl xs⟩

theorem permElems_refl : ∀ xs : List PValue, permElems xs xs
  | [] => by simp [permElems]
  | v :: xs => by
      simp only [permElems]
      exact ⟨permTree_refl v, permElems_refl xs⟩

end

theorem encode_params_perm {d1 d2 : List (String × PValue)}
    (hperm : permTree (.dict d1) (.dict d2))
    (hnd : ((_encode_inner (.dict d1)).map fun p => flatKey p.1).Nodup) :
    (encode_params d1).Perm (encode_params d2) := by
  have hp := permTree_encode _ _ hperm
  have hnd2 : ((_encode_inner (.dict d2)).map fun p => flatKey p.1).Nodup :=
    (hp.map _).nodup hnd
  rw [encode_params_eq_map hnd, encode_params_eq_map hnd2]
  exact hp.map _

theorem flatKey_single (k : String) : flatKey [k] = k := by
  simp [flatKey, String.join]

theorem mem_encode_dict_of_atom_entry {k : String} {a : PAtom} :
    ∀ {xs : List (String × PValue)}, (k, PValue.atom a) ∈ xs →
      ([k], PValue.atom a) ∈ _encode_dict xs := by
  intro xs
  induction xs with
  | nil => intro h; simp at h
  | cons p xs ih =>
      intro h
      rcases List.mem_cons.mp h with h' | h'
      · rw [← h']
        simp [_encode_dict, _encode_inner]
      · cases p
        simp only [_encode_dict]
        exact List.mem_append_right _ (ih h')

/-! ### The claims -/

/-- C1, counterexample: the claim says `encode_params` fails fast with an
"unsupported parameter value kind" error on a tree containing a value outside
{mapping, sequence, atomic scalar}.  It does not: on the input mapping
`x ↦ other` (for example `x ↦ None` in Python) the encoder returns normally
and passes the unsupported value through to the output as if it were an
atomic leaf. -/
theorem c1_counterexample :
    encode_params [("x", PValue.other)] = [("x", PValue.other)]
    ∧ lookupKey "x" (encode_params [("x", PValue.other)]) = some PValue.other :=
  ⟨rfl, rfl⟩

/-- C1 (amended): `encode_params` has no failure mode at all.  The wildcard
`case _:` of `_encode_inner` yields any value that is neither a mapping nor a
sequence as a leaf, so the yielded leaf values are exactly the tree's leaves
(unsupported values included, silently coerced to atoms, with no error and no
path reported). -/
theorem c1_unsupported_values_passed_through :
    (∀ v : PValue, (_encode_inner v).map Prod.snd = leaves v)
    ∧ _encode_inner PValue.other = [([], PValue.other)]
    ∧ encode_params [("x", PValue.other)] = [("x", PValue.other)] :=
  ⟨_encode_inner_snd, rfl, rfl⟩

/-- C3: the two worked examples of the spec.  Encoding
`a ↦ (b ↦ 1, c ↦ [2, 3])` yields exactly `a[b] ↦ 1, a[c][0] ↦ 2, a[c][1] ↦ 3`,
and encoding `a ↦ [(b ↦ [1, 2]), (b ↦ [3])]` yields exactly
`a[0][b][0] ↦ 1, a[0][b][1] ↦ 2, a[1][b][0] ↦ 3`: the flat key is the first
path segment verbatim followed by each remaining segment in square brackets,
with 0-based decimal sequence indices. -/
theorem c3_worked_examples :
    encode_params
        [("a", .dict [("b", .atom (.int 1)), ("c", .list [.atom (.int 2), .atom (.int 3)])])]
      = [("a[b]", .atom (.int 1)), ("a[c][0]", .atom (.int 2)), ("a[c][1]", .atom (.int 3))]
    ∧ encode_params
        [("a", .list [.dict [("b", .list [.atom (.int 1), .atom (.int 2)])],
                      .dict [("b", .list [.atom (.int 3)])]])]
      = [("a[0][b][0]", .atom (.int 1)), ("a[0][b][1]", .atom (.int 2)),
         ("a[1][b][0]", .atom (.int 3))] :=
  ⟨rfl, rfl⟩

/-- C5: an empty sequence or empty mapping anywhere in the tree contributes
zero entries to the output and causes no error, in both positions a container
can occupy: deleting an entry holding an empty container from a mapping
leaves the yielded pairs unchanged, and an empty container sitting as a
sequence element yields nothing itself (while still consuming its
`enumerate` index, so later siblings keep their code-assigned indices).  The
spec's two concrete examples encode to the empty parameter set, and the
sequence-position examples `a ↦ [[], 5]` and `a ↦ [( )]` (an empty mapping
inside a list) contribute no entries for the empty containers. -/
theorem c5_empty_containers_contribute_nothing :
    (∀ (pre post : List (String × PValue)) (k : String),
        _encode_dict (pre ++ (k, PValue.list []) :: post) = _encode_dict (pre ++ post))
    ∧ (∀ (pre post : List (String × PValue)) (k : String),
        _encode_dict (pre ++ (k, PValue.dict []) :: post) = _encode_dict (pre ++ post))
    ∧ (∀ (i : Nat) (pre post : List PValue),
        _encode_list i (pre ++ PValue.list [] :: post)
          = _encode_list i pre ++ _encode_list (i + pre.length + 1) post)
    ∧ (∀ (i : Nat) (pre post : List PValue),
        _encode_list i (pre ++ PValue.dict [] :: post)
          = _encode_list i pre ++ _encode_list (i + pre.length + 1) post)
    ∧ encode_params [("list", PValue.list [])] = []
    ∧ encode_params [("map", PValue.dict [])] = []
    ∧ encode_params [("a", PValue.list [PValue.list [], PValue.atom (.int 5)])]
        = [("a[1]", PValue.atom (.int 5))]
    ∧ encode_params [("a", PValue.list [PValue.dict []])] = [] := by
  refine ⟨?_, ?_, ?_, ?_, rfl, rfl, rfl, rfl⟩
  · intro pre post k
    rw [_encode_dict_append, _encode_dict_append]
    simp [_encode_dict, _encode_inner, _encode_list]
  · intro pre post k
    rw [_encode_dict_append, _encode_dict_append]
    simp [_encode_dict, _encode_inner]
  · intro i pre post
    rw [_encode_list_append, _encode_list]
    simp [_encode_inner, _encode_list]
  · intro i pre post
    rw [_encode_list_append, _encode_list]
    simp [_encode_inner, _encode_dict]

/-- C7: boolean atomic values are passed through unchanged as booleans — a
boolean leaf is yielded as itself (still a `.bool`, not an int or a string),
the yielded leaf values of any tree are exactly its leaves, and the spec's
example `flag ↦ True` encodes to `flag ↦ True`. -/
theorem c7_booleans_preserved :
    (∀ b : Bool, _encode_inner (.atom (.bool b)) = [([], .atom (.bool b))])
    ∧ (∀ v : PValue, (_encode_inner v).map Prod.snd = leaves v)
    ∧ encode_params [("flag", .atom (.bool true))] = [("flag", .atom (.bool true))] :=
  ⟨fun _ => rfl, _encode_inner_snd, rfl⟩

/-- C8: last write wins.  For every input mapping and flat key, the output of
`encode_params` maps the flat key to the value of the last pair of the
depth-first traversal (`_encode_inner`, which iterates mappings in their own
order and sequences by index) whose path encodes to that flat key. -/
theorem c8_last_write_wins (data : List (String × PValue)) (k : String) :
    lookupKey k (encode_params data)
      = ((_encode_inner (.dict data)).reverse.find? fun p => flatKey p.1 == k).map
          Prod.snd := by
  rw [encode_params, lookupKey_foldl_insertLast]
  cases (_encode_inner (.dict data)).reverse.find? fun p => flatKey p.1 == k <;>
    simp [lookupKey]

/-- C2, counterexample: for the well-formed input mapping
`a[b] ↦ 1, a ↦ (b ↦ 2)` the tree has two atomic leaves, but the two leaf
paths `[a[b]]` and `[a, b]` both bracket-encode to the flat key `a[b]`, so
the encoded parameter set has only one entry — the claimed count equality
fails, and the flat key does not losslessly encode the path. -/
theorem c2_counterexample :
    wellFormed (.dict [("a[b]", .atom (.int 1)), ("a", .dict [("b", .atom (.int 2))])]) = true
    ∧ numLeaves (.dict [("a[b]", .atom (.int 1)), ("a", .dict [("b", .atom (.int 2))])]) = 2
    ∧ (encode_params [("a[b]", .atom (.int 1)), ("a", .dict [("b", .atom (.int 2))])]).length
        = 1 :=
  ⟨rfl, rfl, rfl⟩

/-- C2 (amended): for every finite well-formed input mapping whose leaf paths
bracket-encode to pairwise distinct flat keys, the encoded parameter set has
exactly one entry per atomic leaf, every leaf value is retrievable under the
flat key of its path, and flat-key encoding is injective on the paths that
occur. -/
theorem c2_leaf_count_and_addressing (data : List (String × PValue))
    (hwf : wellFormed (.dict data) = true)
    (hnd : ((_encode_inner (.dict data)).map fun p => flatKey p.1).Nodup) :
    (encode_params data).length = numLeaves (.dict data)
    ∧ (∀ (path : List String) (v : PValue), (path, v) ∈ _encode_inner (.dict data) →
        lookupKey (flatKey path) (encode_params data) = some v)
    ∧ ∀ p ∈ _encode_inner (.dict data), ∀ q ∈ _encode_inner (.dict data),
        flatKey p.1 = flatKey q.1 → p.1 = q.1 := by
  refine ⟨?_, ?_, ?_⟩
  · rw [encode_params_eq_map hnd, List.length_map, _encode_inner_length]
  · intro path v hmem
    have hkeys :
        (((_encode_inner (.dict data)).map fun p => (flatKey p.1, p.2)).map
          Prod.fst).Nodup := by
      rw [List.map_map]
      exact hnd
    rw [encode_params_eq_map hnd]
    exact lookupKey_of_mem_nodup _ hkeys _ _ (List.mem_map_of_mem _ hmem)
  · intro p hp q hq hfk
    exact congrArg Prod.fst (List.inj_on_of_nodup_map hnd hp hq hfk)

/-- C2, witness: the amended theorem applied to the spec's worked example
`a ↦ (b ↦ 1, c ↦ [2, 3])`, whose three flat keys are pairwise distinct. -/
theorem c2_witness :
    (encode_params
        [("a", .dict [("b", .atom (.int 1)), ("c", .list [.atom (.int 2), .atom (.int 3)])])]).length
      = numLeaves
          (.dict [("a", .dict [("b", .atom (.int 1)), ("c", .list [.atom (.int 2), .atom (.int 3)])])])
    ∧ (∀ (path : List String) (v : PValue),
        (path, v) ∈ _encode_inner
          (.dict [("a", .dict [("b", .atom (.int 1)), ("c", .list [.atom (.int 2), .atom (.int 3)])])]) →
        lookupKey (flatKey path)
            (encode_params
              [("a", .dict [("b", .atom (.int 1)), ("c", .list [.atom (.int 2), .atom (.int 3)])])])
          = some v)
    ∧ ∀ p ∈ _encode_inner
          (.dict [("a", .dict [("b", .atom (.int 1)), ("c", .list [.atom (.int 2), .atom (.int 3)])])]),
        ∀ q ∈ _encode_inner
          (.dict [("a", .dict [("b", .atom (.int 1)), ("c", .list [.atom (.int 2), .atom (.int 3)])])]),
        flatKey p.1 = flatKey q.1 → p.1 = q.1 :=
  c2_leaf_count_and_addressing
    [("a", .dict [("b", .atom (.int 1)), ("c", .list [.atom (.int 2), .atom (.int 3)])])]
    rfl (by decide)

/-- C4, counterexample: swapping the two sibling entries of the top-level
mapping `a[b] ↦ 1, a ↦ (b ↦ 2)` (a `permTree` re-ordering) changes the set of
(flat key, value) pairs produced: the two leaf paths collide on the flat key
`a[b]`, last write wins, and the two orders keep different values. -/
theorem c4_counterexample :
    permTree (.dict [("a[b]", .atom (.int 1)), ("a", .dict [("b", .atom (.int 2))])])
      (.dict [("a", .dict [("b", .atom (.int 2))]), ("a[b]", .atom (.int 1))])
    ∧ encode_params [("a[b]", .atom (.int 1)), ("a", .dict [("b", .atom (.int 2))])]
        = [("a[b]", .atom (.int 2))]
    ∧ encode_params [("a", .dict [("b", .atom (.int 2))]), ("a[b]", .atom (.int 1))]
        = [("a[b]", .atom (.int 1))] := by
  refine ⟨?_, rfl, rfl⟩
  simp only [permTree]
  exact ⟨_, permEntries_refl _, List.Perm.swap _ _ _⟩

/-- C4 (amended): for every pair of input mappings related by re-ordering
sibling entries within (sub)mappings, provided the first mapping's leaf paths
bracket-encode to pairwise distinct flat keys (no collisions), the two outputs
of `encode_params` are permutations of each other — the same set of
(flat key, value) pairs, in a possibly different order. -/
theorem c4_order_independence {d1 d2 : List (String × PValue)}
    (hperm : permTree (.dict d1) (.dict d2))
    (hnd : ((_encode_inner (.dict d1)).map fun p => flatKey p.1).Nodup) :
    (encode_params d1).Perm (encode_params d2) :=
  encode_params_perm hperm hnd

/-- C4, witness: the amended theorem applied to `a ↦ 1, b ↦ 2` and its
sibling-swapped re-ordering. -/
theorem c4_witness :
    (encode_params [("a", .atom (.int 1)), ("b", .atom (.int 2))]).Perm
      (encode_params [("b", .atom (.int 2)), ("a", .atom (.int 1))]) :=
  c4_order_independence
    (by
      simp only [permTree]
      exact ⟨_, permEntries_refl _, List.Perm.swap _ _ _⟩)
    (by decide)

/-- C6, counterexample: the top-level entry `a[b] ↦ 5` holds an atomic value,
but in the input `a[b] ↦ 5, a ↦ (b ↦ 1)` the nested leaf's path `[a, b]`
bracket-encodes to the same flat key, is yielded later, and overwrites it: the
output maps `a[b]` to `1`, so the root atomic value 5 is not passed through. -/
theorem c6_counterexample :
    lookupKey "a[b]"
        (encode_params [("a[b]", .atom (.int 5)), ("a", .dict [("b", .atom (.int 1))])])
      = some (.atom (.int 1)) :=
  rfl

/-- C6 (amended): for every top-level entry holding an atomic value, in an
input mapping whose leaf paths bracket-encode to pairwise distinct flat keys
(no collisions), the output of `encode_params` maps the top-level key itself —
taken verbatim, with no brackets added (`flatKey [k] = k`) — to that atomic
value unchanged. -/
theorem c6_root_atomic_passthrough {data : List (String × PValue)} {k : String}
    {a : PAtom} (hmem : (k, PValue.atom a) ∈ data)
    (hnd : ((_encode_inner (.dict data)).map fun p => flatKey p.1).Nodup) :
    flatKey [k] = k
    ∧ lookupKey k (encode_params data) = some (PValue.atom a) := by
  refine ⟨flatKey_single k, ?_⟩
  have hpath : ([k], PValue.atom a) ∈ _encode_inner (.dict data) := by
    simp only [_encode_inner]
    exact mem_encode_dict_of_atom_entry hmem
  have hkeys :
      (((_encode_inner (.dict data)).map fun p => (flatKey p.1, p.2)).map
        Prod.fst).Nodup := by
    rw [List.map_map]
    exact hnd
  rw [encode_params_eq_map hnd]
  have hm : (flatKey [k], PValue.atom a)
      ∈ (_encode_inner (.dict data)).map fun p => (flatKey p.1, p.2) :=
    List.mem_map_of_mem (fun p => (flatKey p.1, p.2)) hpath
  rw [flatKey_single k] at hm
  exact lookupKey_of_mem_nodup _ hkeys _ _ hm

/-- C6, witness: the amended theorem applied to the spec's example `x ↦ 5`:
the output is addressed by the bracket-free key `x` and keeps the value 5. -/
theorem c6_witness :
    flatKey ["x"] = "x"
    ∧ lookupKey "x" (encode_params [("x", .atom (.int 5))]) = some (.atom (.int 5)) :=
  c6_root_atomic_passthrough (by simp) (by decide)

/-- C9: `get_points` returns `None` exactly when the `moodleGradeField` form
field is absent (or unfilled, which pypdf reports as a `None` value) or its
text is empty or the text parses as a float neither directly nor after
replacing every `,` with `.`; otherwise it returns the parsed float — in
particular the comma-decimal text `3,5` yields 3.5. -/
theorem c9_get_points_none_iff :
    (∀ fields : List (String × Option String),
      (get_points fields = none ↔
        getFormField fields "moodleGradeField" = none
        ∨ getFormField fields "moodleGradeField" = some ""
        ∨ ∃ s, getFormField fields "moodleGradeField" = some s
            ∧ pyFloat? s = none ∧ pyFloat? (replaceCommas s) = none))
    ∧ get_points [("moodleGradeField", some "3,5")] = some (.finite ((7 : Rat) / 2)) := by
  constructor
  · intro fields
    cases hf : getFormField fields "moodleGradeField" with
    | none => simp [get_points, hf]
    | some d =>
        by_cases hd : d = ""
        · subst hd
          simp [get_points, hf]
        · cases hp : pyFloat? d with
          | some v => simp [get_points, hf, hd, hp]
          | none =>
              cases hp2 : pyFloat? (replaceCommas d) with
              | some v => simp [get_points, hf, hd, hp, hp2]
              | none => simp [get_points, hf, hd, hp, hp2]
  · have h : get_points [("moodleGradeField", some "3,5")]
        = some (.finite (pyFloatVal false 35 1 0)) := rfl
    rw [h]
    norm_num [pyFloatVal]

/-- C10: `modify_pdf` leaves the student file completely untouched — it
returns before even opening the file — whenever the bonus image is absent and
the points value is `None` or exactly `0.0` (both falsy in Python), and a
points value of exactly 0 is never written into the `moodleGradeField` form
field. -/
theorem c10_zero_points_never_written (p : Option PyFloat) (b : Option String) :
    ((b = none ∧ (p = none ∨ p = some (.finite 0))) →
      modify_pdf p b = ⟨false, none, false, false⟩)
    ∧ (modify_pdf p b).fieldWrite ≠ some (.finite 0) := by
  constructor
  · rintro ⟨hb, hp⟩
    subst hb
    rcases hp with hp | hp <;> subst hp <;> rfl
  · intro hcontra
    by_cases hc : (p.elim false pyTruthy) = false ∧ b = none
    · rw [modify_pdf.eq_def, if_pos hc] at hcontra
      simp at hcontra
    · rw [modify_pdf.eq_def, if_neg hc] at hcontra
      rcases p with _ | q
      · simp at hcontra
      · simp only at hcontra
        by_cases hq : pyTruthy q = true
        · rw [if_pos hq] at hcontra
          have hq0 : q = .finite 0 := by simpa using hcontra
          rw [hq0] at hq
          simp [pyTruthy] at hq
        · rw [if_neg hq] at hcontra
          simp at hcontra

/-- C10, witness: at `points = 0.0` with no bonus image the file is untouched
and nothing is written into the form field. -/
theorem c10_witness :
    modify_pdf (some (.finite 0)) none = ⟨false, none, false, false⟩
    ∧ (modify_pdf (some (.finite 0)) none).fieldWrite ≠ some (.finite 0) :=
  ⟨(c10_zero_points_never_written (some (.finite 0)) none).1 ⟨rfl, Or.inr rfl⟩,
    (c10_zero_points_never_written (some (.finite 0)) none).2⟩

end MoodleGrader
